import Mathlib

/-!
Verification of the approximate-nearest-neighbor search engine specified for
this repository: exact flat search, inverted-file (IVF) clustering, product
quantization (PQ), their IVFPQ composition, and a graph-based index.  The
repository's notebook delegates every algorithm to an external native library,
so the components below are modelled from the specification's component
design.  Vectors are modelled over ℚ so that every distance computation is
exact and decidable.
-/

attribute [local semireducible] Rat.add Rat.mul Rat.sub Rat.inv

/-- A vector: a fixed-length ordered sequence of numbers, modelled over ℚ. -/
abbrev Vec := List ℚ

/-- Modelled from the spec: `DistanceMetric.distance`, the squared Euclidean
(squared L2) dissimilarity between two vectors (the library's `IndexFlatL2`
metric). -/
def distance (a b : Vec) : ℚ :=
  ((a.zip b).map fun p => (p.1 - p.2) * (p.1 - p.2)).sum

/-- The search-result order on (id, distance) pairs: ascending by distance,
ties broken by lower id.  Ids are assigned in insertion order, so the id
tie-break is exactly the stable insertion-order tie-break. -/
def resLE (a b : ℕ × ℚ) : Prop :=
  a.2 < b.2 ∨ (a.2 = b.2 ∧ a.1 ≤ b.1)

/-- The strict search-result order on (id, distance) pairs. -/
def resLT (a b : ℕ × ℚ) : Prop :=
  a.2 < b.2 ∨ (a.2 = b.2 ∧ a.1 < b.1)

instance : DecidableRel resLE := fun a b => by
  unfold resLE; infer_instance

instance : DecidableRel resLT := fun a b => by
  unfold resLT; infer_instance

instance : IsTotal (ℕ × ℚ) resLE where
  total a b := by
    unfold resLE
    rcases lt_trichotomy a.2 b.2 with h | h | h
    · exact Or.inl (Or.inl h)
    · rcases Nat.le_total a.1 b.1 with h2 | h2
      · exact Or.inl (Or.inr ⟨h, h2⟩)
      · exact Or.inr (Or.inr ⟨h.symm, h2⟩)
    · exact Or.inr (Or.inl h)

instance : IsTrans (ℕ × ℚ) resLE where
  trans a b c hab hbc := by
    unfold resLE at *
    rcases hab with h1 | ⟨h1, h1'⟩ <;> rcases hbc with h2 | ⟨h2, h2'⟩
    · exact Or.inl (h1.trans h2)
    · exact Or.inl (h2 ▸ h1)
    · exact Or.inl (h1 ▸ h2)
    · exact Or.inr ⟨h1.trans h2, h1'.trans h2'⟩

instance : IsAntisymm (ℕ × ℚ) resLE where
  antisymm a b hab hba := by
    unfold resLE at *
    rcases hab with h1 | ⟨h1, h1'⟩ <;> rcases hba with h2 | ⟨h2, h2'⟩
    · exact absurd h2 (lt_asymm h1)
    · exact absurd h1 (h2.symm ▸ lt_irrefl _)
    · exact absurd h2 (h1.symm ▸ lt_irrefl _)
    · exact Prod.ext (Nat.le_antisymm h1' h2') h1

/-- Score a list of vector ids against a query: each id paired with the exact
distance from the query to the stored vector carrying that id. -/
def scoreIds (db : List Vec) (q : Vec) (ids : List ℕ) : List (ℕ × ℚ) :=
  ids.map fun i => (i, distance q (db.getD i []))

/-- Exact top-k over an explicit candidate id list: score every candidate,
sort ascending by distance with ties broken by lower id (stable by insertion
order), and return the first k pairs.  The flat index instantiates this with
all stored ids, the IVF index with the ids gathered from the probed cells. -/
def topk (db : List Vec) (q : Vec) (ids : List ℕ) (k : ℕ) : List (ℕ × ℚ) :=
  (List.insertionSort resLE (scoreIds db q ids)).take k

/-- Modelled from the spec: `FlatIndex.search` — exhaustive search missing from
src/ (the notebook calls the external library's `IndexFlatL2.search`).  Score
every stored vector against the query, sort ascending by distance with ties
broken stably by insertion order, and return the first k pairs. -/
def flatSearch (db : List Vec) (q : Vec) (k : ℕ) : List (ℕ × ℚ) :=
  topk db q (List.range db.length) k

example : flatSearch [[0], [2], [1]] [1] 2 = [(2, 0), (0, 1)] := by decide

example : flatSearch [[0], [0]] [0] 1 = [(0, 0)] := by decide

theorem distance_cons (x y : ℚ) (a b : Vec) :
    distance (x :: a) (y :: b) = (x - y) * (x - y) + distance a b := by
  simp [distance]

theorem distance_nonneg (a b : Vec) : 0 ≤ distance a b := by
  apply List.sum_nonneg
  intro x hx
  rcases List.mem_map.1 hx with ⟨p, _, rfl⟩
  exact mul_self_nonneg _

theorem distance_self (a : Vec) : distance a a = 0 := by
  induction a with
  | nil => rfl
  | cons x t ih => rw [distance_cons, ih]; ring

theorem distance_eq_zero_iff {a b : Vec} (h : a.length = b.length) :
    distance a b = 0 ↔ a = b := by
  induction a generalizing b with
  | nil =>
    cases b with
    | nil => simp [distance]
    | cons y t => simp at h
  | cons x s ih =>
    cases b with
    | nil => simp at h
    | cons y t =>
      rw [distance_cons]
      constructor
      · intro h0
        have hsq : 0 ≤ (x - y) * (x - y) := mul_self_nonneg _
        have hd : 0 ≤ distance s t := distance_nonneg s t
        have h1 : (x - y) * (x - y) = 0 := le_antisymm (by linarith) hsq
        have h2 : distance s t = 0 := by linarith
        have hxy : x = y := by
          have := mul_self_eq_zero.1 h1
          linarith [sub_eq_zero.1 this]
        have hst : s = t := (ih (by simpa using h)).1 h2
        rw [hxy, hst]
      · intro he
        injection he with h1 h2
        subst h1; subst h2
        rw [distance_self]; ring

theorem resLT_irrefl (a : ℕ × ℚ) : ¬ resLT a a := by
  unfold resLT
  rintro (h | ⟨_, h⟩) <;> exact absurd h (by simp)

theorem resLE_of_resLT {a b : ℕ × ℚ} (h : resLT a b) : resLE a b := by
  unfold resLT at h; unfold resLE
  rcases h with h | ⟨h1, h2⟩
  · exact Or.inl h
  · exact Or.inr ⟨h1, Nat.le_of_lt h2⟩

theorem not_resLT_of_resLE {a b : ℕ × ℚ} (h : resLE a b) : ¬ resLT b a := by
  unfold resLE at h; unfold resLT
  rintro (h2 | ⟨h2, h2'⟩)
  · rcases h with h1 | ⟨h1, _⟩
    · exact absurd (h1.trans h2) (lt_irrefl _)
    · exact absurd h2 (h1 ▸ lt_irrefl _)
  · rcases h with h1 | ⟨h1, h1'⟩
    · exact absurd h1 (h2 ▸ lt_irrefl _)
    · exact absurd (Nat.lt_of_le_of_lt h1' h2') (lt_irrefl _)

theorem resLT_of_resLE_of_ne {a b : ℕ × ℚ} (hab : resLE a b)
    (hfst : a.1 = b.1 → a = b) (hne : a ≠ b) : resLT a b := by
  unfold resLE at hab; unfold resLT
  rcases hab with h | ⟨h1, h2⟩
  · exact Or.inl h
  · refine Or.inr ⟨h1, ?_⟩
    rcases Nat.lt_or_ge a.1 b.1 with h3 | h3
    · exact h3
    · exact absurd (hfst (Nat.le_antisymm h2 h3)) hne

theorem scoreIds_fst_inj (db : List Vec) (q : Vec) (ids : List ℕ) :
    ∀ x ∈ scoreIds db q ids, ∀ y ∈ scoreIds db q ids, x.1 = y.1 → x = y := by
  intro x hx y hy hxy
  rcases List.mem_map.1 hx with ⟨i, _, rfl⟩
  rcases List.mem_map.1 hy with ⟨j, _, rfl⟩
  simp only at hxy
  subst hxy
  rfl

theorem scoreIds_nodup (db : List Vec) (q : Vec) {ids : List ℕ} (h : ids.Nodup) :
    (scoreIds db q ids).Nodup := by
  refine h.map ?_
  intro i j hij
  simpa using congrArg Prod.fst hij

theorem mem_scoreIds {db : List Vec} {q : Vec} {ids : List ℕ} {i : ℕ} :
    (i, distance q (db.getD i [])) ∈ scoreIds db q ids ↔ i ∈ ids := by
  constructor
  · intro h
    rcases List.mem_map.1 h with ⟨j, hj, he⟩
    have : j = i := congrArg Prod.fst he
    exact this ▸ hj
  · intro h
    exact List.mem_map.2 ⟨i, h, rfl⟩

/-- Core counting lemma: an element lies among the first k entries of a list
sorted by the search-result order precisely when fewer than k elements of the
list are strictly better than it. -/
theorem mem_take_sorted_iff {s : List (ℕ × ℚ)} (hs : s.Sorted resLE)
    (hnd : s.Nodup) (hinj : ∀ x ∈ s, ∀ y ∈ s, x.1 = y.1 → x = y)
    (x : ℕ × ℚ) (k : ℕ) :
    x ∈ s.take k ↔ x ∈ s ∧ s.countP (fun a => decide (resLT a x)) < k := by
  induction s generalizing k with
  | nil => simp
  | cons a t ih =>
    have hat : ∀ b ∈ t, resLE a b := List.rel_of_sorted_cons hs
    have hs' : t.Sorted resLE := hs.of_cons
    have hnd' : t.Nodup := hnd.of_cons
    have hinj' : ∀ x ∈ t, ∀ y ∈ t, x.1 = y.1 → x = y := fun u hu v hv =>
      hinj u (List.mem_cons_of_mem a hu) v (List.mem_cons_of_mem a hv)
    cases k with
    | zero => simp
    | succ k =>
      rw [List.take_succ_cons]
      by_cases hxa : x = a
      · subst hxa
        have h0 : t.countP (fun b => decide (resLT b x)) = 0 := by
          rw [List.countP_eq_zero]
          intro b hb
          simpa using not_resLT_of_resLE (hat b hb)
        constructor
        · intro _
          refine ⟨List.mem_cons_self _ _, ?_⟩
          rw [List.countP_cons, h0]
          simp [resLT_irrefl x]
        · intro _
          exact List.mem_cons_self _ _
      · by_cases hxt : x ∈ t
        · have hlt : resLT a x := by
            refine resLT_of_resLE_of_ne (hat x hxt) ?_ (fun he => hxa he.symm)
            intro hfst
            exact hinj a (List.mem_cons_self a t) x (List.mem_cons_of_mem a hxt) hfst
          have hdec : decide (resLT a x) = true := by simpa using hlt
          rw [List.countP_cons, if_pos hdec]
          constructor
          · intro hmem
            have hmem' : x ∈ t.take k := by
              rcases List.mem_cons.1 hmem with h | h
              · exact absurd h hxa
              · exact h
            have h2 := ((ih hs' hnd' hinj' k).1 hmem').2
            exact ⟨List.mem_cons_of_mem _ hxt, by omega⟩
          · rintro ⟨_, hcount⟩
            have hmem : x ∈ t.take k := (ih hs' hnd' hinj' k).2 ⟨hxt, by omega⟩
            exact List.mem_cons_of_mem _ hmem
        · have h1 : x ∉ t.take k := fun hmem => hxt (List.mem_of_mem_take hmem)
          simp [hxa, hxt, h1]


theorem topk_length (db : List Vec) (q : Vec) (ids : List ℕ) (k : ℕ) :
    (topk db q ids k).length = min k ids.length := by
  simp [topk, scoreIds]

theorem topk_sorted (db : List Vec) (q : Vec) (ids : List ℕ) (k : ℕ) :
    (topk db q ids k).Sorted resLE :=
  List.Pairwise.sublist (List.take_sublist k _) (List.sorted_insertionSort resLE _)

theorem topk_subset_scored (db : List Vec) (q : Vec) (ids : List ℕ) (k : ℕ) :
    ∀ x ∈ topk db q ids k, x ∈ scoreIds db q ids := by
  intro x hx
  exact (List.mem_insertionSort resLE).1 (List.mem_of_mem_take hx)

theorem topk_shape (db : List Vec) (q : Vec) (ids : List ℕ) (k : ℕ) :
    ∀ x ∈ topk db q ids k, x.1 ∈ ids ∧ x.2 = distance q (db.getD x.1 []) := by
  intro x hx
  rcases List.mem_map.1 (topk_subset_scored db q ids k x hx) with ⟨i, hi, rfl⟩
  exact ⟨hi, rfl⟩

theorem topk_nodup (db : List Vec) (q : Vec) {ids : List ℕ} (h : ids.Nodup) (k : ℕ) :
    (topk db q ids k).Nodup :=
  (List.take_sublist k _).nodup
    (((List.perm_insertionSort resLE _).nodup_iff).2 (scoreIds_nodup db q h))

theorem topk_pairwise_resLT (db : List Vec) (q : Vec) {ids : List ℕ} (h : ids.Nodup) (k : ℕ) :
    List.Pairwise resLT (topk db q ids k) := by
  have hsorted := topk_sorted db q ids k
  have hnd := topk_nodup db q h k
  have hand : List.Pairwise (fun a b => resLE a b ∧ a ≠ b) (topk db q ids k) :=
    hsorted.and hnd
  refine hand.imp_of_mem ?_
  intro a b ha hb hab
  refine resLT_of_resLE_of_ne hab.1 ?_ hab.2
  exact fun hfst => scoreIds_fst_inj db q ids a (topk_subset_scored db q ids k a ha) b
    (topk_subset_scored db q ids k b hb) hfst

theorem topk_ids_nodup (db : List Vec) (q : Vec) {ids : List ℕ} (h : ids.Nodup) (k : ℕ) :
    ((topk db q ids k).map Prod.fst).Nodup := by
  refine List.Nodup.map_on ?_ (topk_nodup db q h k)
  intro a ha b hb hab
  exact scoreIds_fst_inj db q ids a (topk_subset_scored db q ids k a ha) b
    (topk_subset_scored db q ids k b hb) hab

theorem mem_topk_iff (db : List Vec) (q : Vec) {ids : List ℕ} (h : ids.Nodup)
    (k i : ℕ) :
    (i, distance q (db.getD i [])) ∈ topk db q ids k ↔
      i ∈ ids ∧
        ids.countP (fun j =>
          decide (resLT (j, distance q (db.getD j [])) (i, distance q (db.getD i [])))) < k := by
  have hperm := List.perm_insertionSort resLE (scoreIds db q ids)
  have hs := List.sorted_insertionSort resLE (scoreIds db q ids)
  have hnd : (List.insertionSort resLE (scoreIds db q ids)).Nodup :=
    (hperm.nodup_iff).2 (scoreIds_nodup db q h)
  have hinj : ∀ x ∈ List.insertionSort resLE (scoreIds db q ids),
      ∀ y ∈ List.insertionSort resLE (scoreIds db q ids), x.1 = y.1 → x = y := by
    intro x hx y hy
    exact scoreIds_fst_inj db q ids x ((List.mem_insertionSort resLE).1 hx) y
      ((List.mem_insertionSort resLE).1 hy)
  rw [topk, mem_take_sorted_iff hs hnd hinj]
  rw [hperm.mem_iff, hperm.countP_eq, mem_scoreIds]
  unfold scoreIds
  rw [List.countP_map]
  rfl

theorem mem_topk_ids_iff (db : List Vec) (q : Vec) {ids : List ℕ} (h : ids.Nodup)
    (k i : ℕ) :
    i ∈ (topk db q ids k).map Prod.fst ↔
      i ∈ ids ∧
        ids.countP (fun j =>
          decide (resLT (j, distance q (db.getD j [])) (i, distance q (db.getD i [])))) < k := by
  rw [← mem_topk_iff db q h k i]
  constructor
  · intro hi
    rcases List.mem_map.1 hi with ⟨x, hx, rfl⟩
    rcases topk_shape db q ids k x hx with ⟨_, h2⟩
    have : x = (x.1, distance q (db.getD x.1 [])) := Prod.ext rfl h2
    exact this ▸ hx
  · intro hx
    exact List.mem_map.2 ⟨_, hx, rfl⟩

theorem topk_dominates (db : List Vec) (q : Vec) {ids : List ℕ}
    (k i : ℕ) (hi : i ∈ ids) (hni : i ∉ (topk db q ids k).map Prod.fst) :
    ∀ x ∈ topk db q ids k, resLE x (i, distance q (db.getD i [])) := by
  intro x hx
  set s := List.insertionSort resLE (scoreIds db q ids) with hsdef
  have hs : s.Sorted resLE := List.sorted_insertionSort resLE _
  have hmem : (i, distance q (db.getD i [])) ∈ s :=
    (List.mem_insertionSort resLE).2 (mem_scoreIds.2 hi)
  have hnotake : (i, distance q (db.getD i [])) ∉ s.take k := by
    intro hmem2
    exact hni (List.mem_map.2 ⟨_, hmem2, rfl⟩)
  have hdrop : (i, distance q (db.getD i [])) ∈ s.drop k := by
    rcases (List.mem_append.1 ((List.take_append_drop k s).symm ▸ hmem)) with h2 | h2
    · exact absurd h2 hnotake
    · exact h2
  exact hs.rel_of_mem_take_of_mem_drop hx hdrop

/-- The full characterization of flat search, shared by the components built
on top of it: result length, strict sortedness, true distances, distinct ids,
and k-nearest dominance. -/
theorem flatSearch_props (db : List Vec) (q : Vec) (k : ℕ) :
    (flatSearch db q k).length = min k db.length ∧
    List.Pairwise resLT (flatSearch db q k) ∧
    (∀ x ∈ flatSearch db q k, x.1 < db.length ∧ x.2 = distance q (db.getD x.1 [])) ∧
    ((flatSearch db q k).map Prod.fst).Nodup ∧
    (∀ i, i < db.length → i ∉ (flatSearch db q k).map Prod.fst →
      ∀ x ∈ flatSearch db q k, resLE x (i, distance q (db.getD i []))) := by
  have hnd : (List.range db.length).Nodup := List.nodup_range _
  refine ⟨?_, ?_, ?_, ?_, ?_⟩
  · rw [flatSearch, topk_length, List.length_range]
  · exact topk_pairwise_resLT db q hnd k
  · intro x hx
    rcases topk_shape db q (List.range db.length) k x hx with ⟨h1, h2⟩
    exact ⟨List.mem_range.1 h1, h2⟩
  · exact topk_ids_nodup db q hnd k
  · intro i hi hni
    exact topk_dominates db q k i (List.mem_range.2 hi) hni

theorem resLE_refl (a : ℕ × ℚ) : resLE a a := Or.inr ⟨rfl, Nat.le_refl _⟩

/-- Modelled from the spec: `Quantizer.assign` — the index of the centroid
nearest to the vector, ties broken by lowest index (the head of the flat
search over the centroid list). -/
def assign (cents : List Vec) (v : Vec) : ℕ :=
  ((flatSearch cents v 1).headD (0, 0)).1

theorem flatSearch_one (db : List Vec) (v : Vec) (h : db ≠ []) :
    flatSearch db v 1 = [((flatSearch db v 1).headD (0, 0))] := by
  have hlen : (flatSearch db v 1).length = 1 := by
    rw [(flatSearch_props db v 1).1]
    have : 0 < db.length := List.length_pos.2 h
    omega
  cases hL : flatSearch db v 1 with
  | nil => rw [hL] at hlen; simp at hlen
  | cons x t =>
    rw [hL] at hlen
    simp only [List.length_cons] at hlen
    have : t = [] := List.length_eq_zero.1 (by omega)
    subst this
    rfl

theorem assign_lt (cents : List Vec) (v : Vec) (h : cents ≠ []) :
    assign cents v < cents.length := by
  have h1 := flatSearch_one cents v h
  have h2 := (flatSearch_props cents v 1).2.2.1
  rw [h1] at h2
  exact (h2 _ (List.mem_cons_self _ _)).1

theorem assign_head_eq (cents : List Vec) (v : Vec) (h : cents ≠ []) :
    (flatSearch cents v 1).headD (0, 0) =
      (assign cents v, distance v (cents.getD (assign cents v) [])) := by
  have h1 := flatSearch_one cents v h
  have h2 := (flatSearch_props cents v 1).2.2.1
  rw [h1] at h2
  have := (h2 _ (List.mem_cons_self _ _)).2
  exact Prod.ext rfl this

theorem assign_min (cents : List Vec) (v : Vec) (h : cents ≠ []) :
    ∀ j, j < cents.length →
      resLE (assign cents v, distance v (cents.getD (assign cents v) []))
        (j, distance v (cents.getD j [])) := by
  intro j hj
  by_cases hji : j = assign cents v
  · subst hji; exact resLE_refl _
  · have h1 := flatSearch_one cents v h
    have hdom := (flatSearch_props cents v 1).2.2.2.2
    have hx : (flatSearch cents v 1).headD (0, 0) ∈ flatSearch cents v 1 := by
      rw [h1]; exact List.mem_cons_self _ _
    have hni : j ∉ (flatSearch cents v 1).map Prod.fst := by
      rw [h1, assign_head_eq cents v h]
      simp [hji]
    have := hdom j hj hni _ hx
    rw [assign_head_eq cents v h] at this
    exact this

/-- Modelled from the spec: the IVF `Cell` membership lists — cell j holds, in
insertion order, the ids of the stored vectors whose assigned (nearest)
centroid is centroid j. -/
def cellMembers (db cents : List Vec) (j : ℕ) : List ℕ :=
  (List.range db.length).filter fun i => decide (assign cents (db.getD i []) = j)

/-- Modelled from the spec: IVF cell selection at search time — rank all cells
by the distance from the query to their centroids (ties broken by lowest cell
index) and keep the nprobe nearest. -/
def selectCells (cents : List Vec) (q : Vec) (nprobe : ℕ) : List ℕ :=
  ((List.insertionSort resLE (scoreIds cents q (List.range cents.length))).map
    Prod.fst).take nprobe

/-- The candidate ids gathered from the probed cells, cell by cell. -/
def ivfCandidates (db cents : List Vec) (q : Vec) (nprobe : ℕ) : List ℕ :=
  (selectCells cents q nprobe).flatMap (cellMembers db cents)

/-- Modelled from the spec: `InvertedFileIndex.search` — select the nprobe
nearest cells, gather the candidate ids stored in those cells only, compute
exact distances against the candidates, and return the top k ascending. -/
def ivfSearch (db cents : List Vec) (q : Vec) (k nprobe : ℕ) : List (ℕ × ℚ) :=
  topk db q (ivfCandidates db cents q nprobe) k

example : ivfSearch [[0], [2], [1]] [[0], [2]] [1] 2 2 = [(2, 0), (0, 1)] := by decide

example : ivfSearch [[0], [2], [1]] [[0], [2]] [1] 2 1 = [(2, 0), (0, 1)] := by decide

theorem scoreIds_map_fst (db : List Vec) (q : Vec) (ids : List ℕ) :
    (scoreIds db q ids).map Prod.fst = ids := by
  simp [scoreIds, List.map_map, Function.comp_def]

theorem sort_scored_map_fst_perm (db : List Vec) (q : Vec) (ids : List ℕ) :
    ((List.insertionSort resLE (scoreIds db q ids)).map Prod.fst).Perm ids := by
  have := (List.perm_insertionSort resLE (scoreIds db q ids)).map Prod.fst
  rwa [scoreIds_map_fst] at this

theorem selectCells_sub (cents : List Vec) (q : Vec) (nprobe : ℕ) :
    ∀ j ∈ selectCells cents q nprobe, j < cents.length := by
  intro j hj
  have h1 : j ∈ (List.insertionSort resLE
      (scoreIds cents q (List.range cents.length))).map Prod.fst :=
    List.mem_of_mem_take hj
  have h2 := (sort_scored_map_fst_perm cents q (List.range cents.length)).mem_iff.1 h1
  exact List.mem_range.1 h2

theorem selectCells_nodup (cents : List Vec) (q : Vec) (nprobe : ℕ) :
    (selectCells cents q nprobe).Nodup := by
  refine (List.take_sublist nprobe _).nodup ?_
  exact ((sort_scored_map_fst_perm cents q (List.range cents.length)).nodup_iff).2
    (List.nodup_range _)

theorem selectCells_full_perm (cents : List Vec) (q : Vec) :
    (selectCells cents q cents.length).Perm (List.range cents.length) := by
  unfold selectCells
  rw [List.take_of_length_le]
  · exact sort_scored_map_fst_perm cents q (List.range cents.length)
  · simp [scoreIds]

theorem count_cellMembers (db cents : List Vec) (j i : ℕ) :
    (cellMembers db cents j).count i =
      if i < db.length ∧ assign cents (db.getD i []) = j then 1 else 0 := by
  unfold cellMembers
  by_cases hp : assign cents (db.getD i []) = j
  · rw [List.count_filter (by simpa using hp)]
    by_cases hi : i < db.length
    · rw [List.count_eq_one_of_mem (List.nodup_range _) (List.mem_range.2 hi),
        if_pos ⟨hi, hp⟩]
    · rw [List.count_eq_zero.2 (by simpa using hi), if_neg (by tauto)]
  · have hnm : i ∉ (List.range db.length).filter
        (fun i => decide (assign cents (db.getD i []) = j)) := by
      intro hmem
      exact hp (by simpa using (List.mem_filter.1 hmem).2)
    rw [List.count_eq_zero.2 hnm, if_neg (by tauto)]

theorem count_flatMap_cellMembers (db cents : List Vec) (i : ℕ) (m : ℕ) :
    ((List.range m).flatMap (cellMembers db cents)).count i =
      if i < db.length ∧ assign cents (db.getD i []) < m then 1 else 0 := by
  induction m with
  | zero => simp
  | succ m ih =>
    rw [List.range_succ, List.flatMap_append, List.count_append, ih]
    have h1 : ([m].flatMap (cellMembers db cents)).count i =
        (cellMembers db cents m).count i := by
      simp
    rw [h1, count_cellMembers]
    split_ifs <;> omega

theorem ivfCandidates_full_perm (db cents : List Vec) (q : Vec) (h : cents ≠ []) :
    (ivfCandidates db cents q cents.length).Perm (List.range db.length) := by
  unfold ivfCandidates
  refine ((selectCells_full_perm cents q).flatMap_right (cellMembers db cents)).trans ?_
  rw [List.perm_iff_count]
  intro i
  rw [count_flatMap_cellMembers]
  by_cases hi : i < db.length
  · have ha := assign_lt cents (db.getD i []) h
    rw [List.count_eq_one_of_mem (List.nodup_range _) (List.mem_range.2 hi),
      if_pos ⟨hi, ha⟩]
  · rw [List.count_eq_zero.2 (by simpa using hi), if_neg (by tauto)]

/-- C2: a trained IVF index probed on all of its cells returns exactly the
flat-index results on the same dataset: same ids, same distances, same order,
for every query and every k.  The centroid list is an arbitrary nonempty
trained quantizer, so the statement covers every trained IVF index. -/
theorem ivf_full_probe_eq_flat (db cents : List Vec) (q : Vec) (k : ℕ)
    (h : cents ≠ []) :
    ivfSearch db cents q k cents.length = flatSearch db q k := by
  unfold ivfSearch flatSearch topk
  have hperm : (scoreIds db q (ivfCandidates db cents q cents.length)).Perm
      (scoreIds db q (List.range db.length)) :=
    (ivfCandidates_full_perm db cents q h).map _
  have hsort : List.insertionSort resLE
        (scoreIds db q (ivfCandidates db cents q cents.length)) =
      List.insertionSort resLE (scoreIds db q (List.range db.length)) := by
    exact List.eq_of_perm_of_sorted
      (((List.perm_insertionSort resLE _).trans hperm).trans
        (List.perm_insertionSort resLE _).symm)
      (List.sorted_insertionSort resLE _)
      (List.sorted_insertionSort resLE _)
  rw [hsort]

/-- Witness for C2 at a concrete index: three stored vectors, two cells. -/
theorem ivf_full_probe_eq_flat_witness :
    ([[0], [2]] : List Vec) ≠ [] ∧
      ivfSearch [[0], [2], [1]] [[0], [2]] [1] 2 2 = flatSearch [[0], [2], [1]] [1] 2 :=
  ⟨by decide, ivf_full_probe_eq_flat [[0], [2], [1]] [[0], [2]] [1] 2 (by decide)⟩

theorem mem_cellMembers {db cents : List Vec} {j i : ℕ} :
    i ∈ cellMembers db cents j ↔ i < db.length ∧ assign cents (db.getD i []) = j := by
  unfold cellMembers
  rw [List.mem_filter, List.mem_range]
  simp

theorem mem_ivfCandidates {db cents : List Vec} {q : Vec} {nprobe i : ℕ} :
    i ∈ ivfCandidates db cents q nprobe ↔
      i < db.length ∧ assign cents (db.getD i []) ∈ selectCells cents q nprobe := by
  unfold ivfCandidates
  rw [List.mem_flatMap]
  constructor
  · rintro ⟨j, hj, hi⟩
    rcases mem_cellMembers.1 hi with ⟨h1, h2⟩
    exact ⟨h1, h2 ▸ hj⟩
  · rintro ⟨h1, h2⟩
    exact ⟨_, h2, mem_cellMembers.2 ⟨h1, rfl⟩⟩

theorem nodup_flatMap_cellMembers (db cents : List Vec) {js : List ℕ}
    (h : js.Nodup) : (js.flatMap (cellMembers db cents)).Nodup := by
  induction js with
  | nil => simp
  | cons j t ih =>
    rw [List.flatMap_cons]
    refine List.Nodup.append ((List.nodup_range _).filter _) (ih h.of_cons) ?_
    intro i hi1 hi2
    rcases List.mem_flatMap.1 hi2 with ⟨j2, hj2, hij2⟩
    have h1 := (mem_cellMembers.1 hi1).2
    have h2 := (mem_cellMembers.1 hij2).2
    have : j ∈ t := by rw [← (h1.symm.trans h2)] at hj2; exact hj2
    exact (List.nodup_cons.1 h).1 this

theorem ivfCandidates_nodup (db cents : List Vec) (q : Vec) (nprobe : ℕ) :
    (ivfCandidates db cents q nprobe).Nodup :=
  nodup_flatMap_cellMembers db cents (selectCells_nodup cents q nprobe)

theorem selectCells_mono (cents : List Vec) (q : Vec) {p1 p2 : ℕ} (hp : p1 ≤ p2) :
    ∃ rest, selectCells cents q p2 = selectCells cents q p1 ++ rest := by
  unfold selectCells
  set L := (List.insertionSort resLE
    (scoreIds cents q (List.range cents.length))).map Prod.fst with hL
  have h0 : (L.take p2).take p1 = L.take p1 := by
    rw [List.take_take, Nat.min_eq_left hp]
  have h1 := List.take_append_drop p1 (L.take p2)
  rw [h0] at h1
  exact ⟨(L.take p2).drop p1, h1.symm⟩

theorem ivfCandidates_mono (db cents : List Vec) (q : Vec) {p1 p2 : ℕ}
    (hp : p1 ≤ p2) :
    ∃ rest, ivfCandidates db cents q p2 = ivfCandidates db cents q p1 ++ rest := by
  rcases selectCells_mono cents q hp with ⟨rest, hr⟩
  refine ⟨rest.flatMap (cellMembers db cents), ?_⟩
  rw [ivfCandidates, hr, List.flatMap_append]
  rfl

/-- The ids carried by a search-result list, in result order. -/
def resultIds (res : List (ℕ × ℚ)) : List ℕ := res.map Prod.fst

/-- Recall count of an IVF search against the flat-index ground truth: the
number of true k-nearest ids that the IVF search returns.  Recall is this
count divided by the ground-truth size, so monotonicity of the count in
nprobe is monotonicity of recall. -/
def recallCount (db cents : List Vec) (q : Vec) (k nprobe : ℕ) : ℕ :=
  ((resultIds (ivfSearch db cents q k nprobe)).filter
    (fun i => decide (i ∈ resultIds (flatSearch db q k)))).length

theorem resultIds_ivf_subset (db cents : List Vec) (q : Vec) (k p : ℕ) :
    ∀ i ∈ resultIds (ivfSearch db cents q k p), i ∈ ivfCandidates db cents q p := by
  intro i hi
  rcases List.mem_map.1 hi with ⟨x, hx, rfl⟩
  exact (topk_shape db q (ivfCandidates db cents q p) k x hx).1

theorem mem_ivf_result_of_mem_truth (db cents : List Vec) (q : Vec) (k p : ℕ)
    {i : ℕ} (hc : i ∈ ivfCandidates db cents q p)
    (hg : i ∈ resultIds (flatSearch db q k)) :
    i ∈ resultIds (ivfSearch db cents q k p) := by
  have hcnd : (ivfCandidates db cents q p).Nodup := ivfCandidates_nodup db cents q p
  have hrange : (List.range db.length).Nodup := List.nodup_range _
  have hG := (mem_topk_ids_iff db q hrange k i).1 hg
  have hsub : ivfCandidates db cents q p ⊆ List.range db.length := by
    intro j hj
    exact List.mem_range.2 (mem_ivfCandidates.1 hj).1
  have hle : (ivfCandidates db cents q p).countP
        (fun j => decide (resLT (j, distance q (db.getD j []))
          (i, distance q (db.getD i [])))) ≤
      (List.range db.length).countP
        (fun j => decide (resLT (j, distance q (db.getD j []))
          (i, distance q (db.getD i [])))) :=
    (List.subperm_of_subset hcnd hsub).countP_le _
  exact (mem_topk_ids_iff db q hcnd k i).2 ⟨hc, Nat.lt_of_le_of_lt hle hG.2⟩

theorem recallCount_eq_filter_candidates (db cents : List Vec) (q : Vec) (k p : ℕ) :
    recallCount db cents q k p =
      ((ivfCandidates db cents q p).filter
        (fun i => decide (i ∈ resultIds (flatSearch db q k)))).length := by
  unfold recallCount
  have hcnd : (ivfCandidates db cents q p).Nodup := ivfCandidates_nodup db cents q p
  have hR : (resultIds (ivfSearch db cents q k p)).Nodup :=
    topk_ids_nodup db q hcnd k
  have hmem : ∀ i, i ∈ (resultIds (ivfSearch db cents q k p)).filter
      (fun i => decide (i ∈ resultIds (flatSearch db q k))) ↔
      i ∈ (ivfCandidates db cents q p).filter
        (fun i => decide (i ∈ resultIds (flatSearch db q k))) := by
    intro i
    rw [List.mem_filter, List.mem_filter]
    constructor
    · rintro ⟨h1, h2⟩
      exact ⟨resultIds_ivf_subset db cents q k p i h1, h2⟩
    · rintro ⟨h1, h2⟩
      exact ⟨mem_ivf_result_of_mem_truth db cents q k p h1 (by simpa using h2), h2⟩
  exact ((List.perm_ext_iff_of_nodup (hR.filter _) (hcnd.filter _)).2 hmem).length_eq

/-- C3: for every trained IVF index (any centroid list), every query and every
k, recall against the flat-index ground truth is monotone non-decreasing in
nprobe: probing more cells only extends the gathered candidate list, every
ground-truth id among the candidates is returned by the exact re-ranking, so
the count of returned ground-truth ids never drops. -/
theorem ivf_recall_mono (db cents : List Vec) (q : Vec) (k : ℕ) {p1 p2 : ℕ}
    (hp : p1 ≤ p2) :
    recallCount db cents q k p1 ≤ recallCount db cents q k p2 := by
  rw [recallCount_eq_filter_candidates, recallCount_eq_filter_candidates]
  rcases ivfCandidates_mono db cents q hp with ⟨rest, hr⟩
  rw [hr, List.filter_append, List.length_append]
  omega

/-- Witness for C3 at a concrete index: nprobe 1 versus 2 on a two-cell index. -/
theorem ivf_recall_mono_witness :
    (1 : ℕ) ≤ 2 ∧
      recallCount [[0], [2], [1]] [[0], [2]] [1] 2 1 ≤
        recallCount [[0], [2], [1]] [[0], [2]] [1] 2 2 :=
  ⟨by decide, ivf_recall_mono [[0], [2], [1]] [[0], [2]] [1] 2 (by decide)⟩

theorem getD_eq_get {α : Type} {l : List α} {d : α} {n : ℕ} (h : n < l.length) :
    l.getD n d = l[n] := by
  rw [List.getD_eq_getElem?_getD, List.getElem?_eq_getElem h]
  rfl

/-- C6 counterexample: the claim fails on a flat index holding two equal
vectors.  The vector stored at id 1 equals the query, yet the search returns
id 0 (the first copy), not the queried vector's own id 1. -/
theorem flatSearch_self_counterexample :
    1 < ([[0], [0]] : List Vec).length ∧
      flatSearch [[0], [0]] (([[0], [0]] : List Vec).getD 1 []) 1 ≠ [(1, 0)] := by
  decide

/-- C6 amended: searching a flat index with a stored vector as the query and
k = 1 returns distance 0 together with the id of the FIRST stored copy of
that vector (the stable tie-break picks the lowest id); that id is at most
the queried id, and equals it whenever the stored vectors are pairwise
distinct. -/
theorem flatSearch_self_first (db : List Vec) (d i : ℕ)
    (hdim : ∀ v ∈ db, v.length = d) (hi : i < db.length) :
    flatSearch db (db.getD i []) 1 =
        [(db.findIdx (fun w => decide (w = db.getD i [])), 0)] ∧
      db.findIdx (fun w => decide (w = db.getD i [])) ≤ i ∧
      (db.Nodup → flatSearch db (db.getD i []) 1 = [(i, 0)]) := by
  set q := db.getD i [] with hq
  set p : Vec → Bool := fun w => decide (w = q) with hp
  have hne : db ≠ [] := by
    intro h
    rw [h] at hi
    simp at hi
  have hqe : q = db[i] := getD_eq_get hi
  have hex : ∃ x ∈ db, p x = true := ⟨db[i], List.getElem_mem hi, by simp [hp, hqe]⟩
  have hjlt : db.findIdx p < db.length := List.findIdx_lt_length_of_exists hex
  set j0 := db.findIdx p with hj0
  have hdbj0 : db[j0] = q := by
    have hpj0 : p db[j0] = true := List.findIdx_getElem
    simpa [hp] using hpj0
  have hj0le : j0 ≤ i := by
    by_contra hgt
    push_neg at hgt
    have hfalse := @List.not_of_lt_findIdx _ p db _ hgt
    simp only [hp, decide_eq_false_iff_not] at hfalse
    exact hfalse hqe.symm
  have hone := flatSearch_one db q hne
  set x := (flatSearch db q 1).headD (0, 0) with hx
  have hcor := flatSearch_props db q 1
  have hxmem : x ∈ flatSearch db q 1 := by
    rw [hone]
    exact List.mem_cons_self _ _
  have hshape := hcor.2.2.1 x hxmem
  have hdj0 : distance q (db.getD j0 []) = 0 := by
    rw [getD_eq_get hjlt, hdbj0, distance_self]
  have hled : resLE x (j0, 0) := by
    by_cases hje : j0 = x.1
    · have hxe : (j0, (0 : ℚ)) = x := by
        refine Prod.ext hje ?_
        rw [hshape.2, ← hje, hdj0]
      rw [hxe]
      exact resLE_refl x
    · have hni : j0 ∉ (flatSearch db q 1).map Prod.fst := by
        rw [hone]
        simp [hje]
      have := hcor.2.2.2.2 j0 hjlt hni x hxmem
      rwa [hdj0] at this
  have hx2nn : 0 ≤ x.2 := by
    rw [hshape.2]
    exact distance_nonneg _ _
  have hx2 : x.2 = 0 ∧ x.1 ≤ j0 := by
    rcases hled with h | h
    · exact absurd h (not_lt.2 hx2nn)
    · exact ⟨h.1, h.2⟩
  have hdx : distance q (db.getD x.1 []) = 0 := by
    rw [← hshape.2]
    exact hx2.1
  have hlen : q.length = (db.getD x.1 []).length := by
    rw [hqe, getD_eq_get hshape.1]
    rw [hdim db[i] (List.getElem_mem hi), hdim db[x.1] (List.getElem_mem hshape.1)]
  have hdbx : db[x.1] = q := by
    have := (distance_eq_zero_iff hlen).1 hdx
    rw [← getD_eq_get hshape.1, this]
  have hj0lex1 : j0 ≤ x.1 := by
    by_contra hgt
    push_neg at hgt
    have hfalse := @List.not_of_lt_findIdx _ p db _ hgt
    simp only [hp, decide_eq_false_iff_not] at hfalse
    exact hfalse hdbx
  have hx1j0 : x.1 = j0 := le_antisymm hx2.2 hj0lex1
  have hxeq : x = (j0, 0) := Prod.ext hx1j0 hx2.1
  refine ⟨?_, hj0le, ?_⟩
  · rw [hone, hxeq]
  · intro hndp
    have hji : j0 = i := by
      have hgg : db[j0] = db[i] := by rw [hdbj0, hqe]
      exact (hndp.getElem_inj_iff).1 hgg
    rw [hone, hxeq, hji]

/-- Witness for the amended C6 at a concrete index with distinct vectors. -/
theorem flatSearch_self_first_witness :
    (∀ v ∈ ([[0], [2]] : List Vec), v.length = 1) ∧ 1 < ([[0], [2]] : List Vec).length ∧
      (flatSearch [[0], [2]] (([[0], [2]] : List Vec).getD 1 []) 1 =
          [(([[0], [2]] : List Vec).findIdx (fun w => decide (w = ([[0], [2]] : List Vec).getD 1 [])), 0)] ∧
        ([[0], [2]] : List Vec).findIdx (fun w => decide (w = ([[0], [2]] : List Vec).getD 1 [])) ≤ 1 ∧
        (([[0], [2]] : List Vec).Nodup → flatSearch [[0], [2]] (([[0], [2]] : List Vec).getD 1 []) 1 = [(1, 0)])) :=
  ⟨by decide, by decide, flatSearch_self_first [[0], [2]] 1 1 (by decide) (by decide)⟩

/-- Modelled from the spec: the error taxonomy of the component design. -/
inductive TrainError where
  | dimensionMismatch : TrainError
  | insufficientData : TrainError
  | emptyIndex : TrainError
  | notTrained : TrainError
  | outOfRange : TrainError
deriving DecidableEq

instance {ε α : Type} [DecidableEq ε] [DecidableEq α] : DecidableEq (Except ε α) :=
  fun a b =>
    match a, b with
    | .ok x, .ok y =>
      if h : x = y then isTrue (by rw [h]) else isFalse (fun he => by cases he; exact h rfl)
    | .error x, .error y =>
      if h : x = y then isTrue (by rw [h]) else isFalse (fun he => by cases he; exact h rfl)
    | .ok _, .error _ => isFalse (fun he => by cases he)
    | .error _, .ok _ => isFalse (fun he => by cases he)

/-- Componentwise sum of two vectors. -/
def vecAdd (a b : Vec) : Vec := List.zipWith (· + ·) a b

/-- Sum of a list of d-dimensional vectors. -/
def vecSum (d : ℕ) (l : List Vec) : Vec := l.foldl vecAdd (List.replicate d 0)

/-- The mean of a cluster: its vector sum scaled by one over its size. -/
def centroidOf (d : ℕ) (l : List Vec) : Vec :=
  (vecSum d l).map fun c => c / (l.length : ℚ)

/-- The stored vector farthest from its assigned centroid (earliest on ties);
used to reseed a cluster that became empty during an iteration. -/
def farthestVec (cents vs : List Vec) : Vec :=
  vs.foldl (fun best v =>
    if distance best (cents.getD (assign cents best) []) <
        distance v (cents.getD (assign cents v) []) then v else best)
    (vs.headD [])

/-- Modelled from the spec: one iteration of Lloyd's relocation — assign every
vector to its nearest centroid, then recompute each centroid as the mean of
its cluster; a cluster left empty is reseeded from the globally
farthest-assigned vector. -/
def kmeansStep (vs : List Vec) (d : ℕ) (cents : List Vec) : List Vec :=
  (List.range cents.length).map fun j =>
    let members := vs.filter fun v => decide (assign cents v = j)
    if members.isEmpty then farthestVec cents vs else centroidOf d members

/-- The Lloyd iteration, run until the centroids stabilize or the fuel (the
spec's maximum iteration count) runs out. -/
def kmeansLoop (vs : List Vec) (d : ℕ) : ℕ → List Vec → List Vec
  | 0, cents => cents
  | fuel + 1, cents =>
    let next := kmeansStep vs d cents
    if next = cents then cents else kmeansLoop vs d fuel next

/-- The spec's maximum iteration count for clustering. -/
def kmeansMaxIter : ℕ := 25

/-- Modelled from the spec: `Quantizer.train` — fails with InsufficientData
when the training set holds fewer vectors than the requested cluster count,
otherwise runs Lloyd's iteration from the deterministic seed sample (the
first n distinct insertion positions of the input). -/
def kmeansTrain (vs : List Vec) (d n : ℕ) : Except TrainError (List Vec) :=
  if vs.length < n then .error .insufficientData
  else .ok (kmeansLoop vs d kmeansMaxIter (vs.take n))

/-- Modelled from the spec: the m segment sub-vectors of a vector, each of
dimension d/m (the segment count m must divide the dimension d). -/
def segments (m : ℕ) (v : Vec) : List Vec :=
  (List.range m).map fun j => (v.drop (j * (v.length / m))).take (v.length / m)

/-- Collect per-segment training results, aborting on the first failure. -/
def collectExcept : List (Except TrainError (List Vec)) →
    Except TrainError (List (List Vec))
  | [] => .ok []
  | .error e :: _ => .error e
  | .ok c :: rest =>
    match collectExcept rest with
    | .error e => .error e
    | .ok cs => .ok (c :: cs)

/-- Modelled from the spec: `ProductQuantizer.train` — for each of the m
segments, cluster the segment sub-vectors of the training set into 2^nbits
centroid-segments, giving m independent codebooks; any segment's failure
aborts the whole training with no partial codebooks. -/
def pqTrain (vs : List Vec) (d m nbits : ℕ) : Except TrainError (List (List Vec)) :=
  collectExcept ((List.range m).map fun j =>
    kmeansTrain (vs.map fun v => (v.drop (j * (d / m))).take (d / m)) (d / m) (2 ^ nbits))

/-- Modelled from the spec: `ProductQuantizer.encode` — for each segment,
record the index of the nearest centroid-segment of that segment's codebook;
the code has one sub-code per codebook. -/
def pqEncode (cbs : List (List Vec)) (v : Vec) : List ℕ :=
  (List.zip (segments cbs.length v) cbs).map fun p => assign p.2 p.1

/-- Modelled from the spec: `ProductQuantizer.approximate_distance` — the sum
over segments of the distance from the query's sub-vector to the
centroid-segment named by the code (asymmetric distance computation: the
query stays unquantized). -/
def approximateDistance (cbs : List (List Vec)) (q : Vec) (code : List ℕ) : ℚ :=
  ((List.zip (segments cbs.length q) (List.zip cbs code)).map fun p =>
    distance p.1 (p.2.1.getD p.2.2 [])).sum

example : pqTrain [[0], [2], [4]] 1 1 1 = .ok [[[0], [3]]] := by decide

example : pqEncode [[[0], [3]]] [2] = [1] := by decide

example : approximateDistance [[[0], [3]]] [2] [1] = 1 := by decide

theorem sum_nonneg_eq_zero_iff {l : List ℚ} (h : ∀ x ∈ l, 0 ≤ x) :
    l.sum = 0 ↔ ∀ x ∈ l, x = 0 := by
  induction l with
  | nil => simp
  | cons a t ih =>
    rw [List.sum_cons]
    have ha := h a (List.mem_cons_self _ _)
    have ht : ∀ x ∈ t, 0 ≤ x := fun x hx => h x (List.mem_cons_of_mem _ hx)
    have hts : 0 ≤ t.sum := List.sum_nonneg ht
    constructor
    · intro h0
      have ha0 : a = 0 := by linarith
      have hts0 : t.sum = 0 := by linarith
      intro x hx
      rcases List.mem_cons.1 hx with rfl | hx
      · exact ha0
      · exact (ih ht).1 hts0 x hx
    · intro hall
      rw [hall a (List.mem_cons_self _ _), zero_add]
      exact (ih ht).2 fun x hx => hall x (List.mem_cons_of_mem _ hx)

theorem approx_encode_terms (segs : List Vec) (cbs : List (List Vec)) :
    (List.zip segs (List.zip cbs ((List.zip segs cbs).map fun p => assign p.2 p.1))).map
        (fun p => distance p.1 (p.2.1.getD p.2.2 [])) =
      (List.zip segs cbs).map fun p => distance p.1 (p.2.getD (assign p.2 p.1) []) := by
  induction segs generalizing cbs with
  | nil => simp
  | cons s st ih =>
    cases cbs with
    | nil => simp
    | cons c ct => simpa using ih ct

theorem approximateDistance_encode (cbs : List (List Vec)) (v : Vec) :
    approximateDistance cbs v (pqEncode cbs v) =
      ((List.zip (segments cbs.length v) cbs).map fun p =>
        distance p.1 (p.2.getD (assign p.2 p.1) [])).sum := by
  unfold approximateDistance pqEncode
  rw [approx_encode_terms]

/-- C5: for every product quantizer (any family of nonempty codebooks whose
centroid-segments have the segment dimension) and every vector v, the
approximate distance from v to its own code is non-negative, and it is zero
precisely when every segment of v coincides exactly with a centroid-segment
of its codebook — so it is strictly positive in every other case.  The last
conjunct checks the lossy case on a concretely trained quantizer: clustering
the one-dimensional training set {0, 2, 4} into two centroids produces the
codebook {0, 3}, and the training vector 2 then has strictly positive
approximate self-distance. -/
theorem pq_self_distance (cbs : List (List Vec)) (v : Vec)
    (hne : ∀ cb ∈ cbs, cb ≠ [])
    (hlen : ∀ p ∈ List.zip (segments cbs.length v) cbs, ∀ c ∈ p.2, c.length = p.1.length) :
    0 ≤ approximateDistance cbs v (pqEncode cbs v) ∧
      (approximateDistance cbs v (pqEncode cbs v) = 0 ↔
        ∀ p ∈ List.zip (segments cbs.length v) cbs, p.1 ∈ p.2) ∧
      ((¬ ∀ p ∈ List.zip (segments cbs.length v) cbs, p.1 ∈ p.2) →
        0 < approximateDistance cbs v (pqEncode cbs v)) ∧
      (pqTrain [[0], [2], [4]] 1 1 1 = .ok [[[0], [3]]] ∧
        0 < approximateDistance [[[0], [3]]] [2] (pqEncode [[[0], [3]]] [2])) := by
  rw [approximateDistance_encode]
  have hterm_nonneg : ∀ x ∈ (List.zip (segments cbs.length v) cbs).map
      (fun p => distance p.1 (p.2.getD (assign p.2 p.1) [])), 0 ≤ x := by
    intro x hx
    rcases List.mem_map.1 hx with ⟨p, _, rfl⟩
    exact distance_nonneg _ _
  have hnn : 0 ≤ ((List.zip (segments cbs.length v) cbs).map
      (fun p => distance p.1 (p.2.getD (assign p.2 p.1) []))).sum :=
    List.sum_nonneg hterm_nonneg
  have hiff : ((List.zip (segments cbs.length v) cbs).map
        (fun p => distance p.1 (p.2.getD (assign p.2 p.1) []))).sum = 0 ↔
      ∀ p ∈ List.zip (segments cbs.length v) cbs, p.1 ∈ p.2 := by
    rw [sum_nonneg_eq_zero_iff hterm_nonneg]
    constructor
    · intro hz p hp
      have hzp := hz _ (List.mem_map.2 ⟨p, hp, rfl⟩)
      have hnem : p.2 ≠ [] := hne p.2 (List.of_mem_zip hp).2
      have hlt := assign_lt p.2 p.1 hnem
      have hmemc : p.2.getD (assign p.2 p.1) [] ∈ p.2 := by
        rw [getD_eq_get hlt]
        exact List.getElem_mem hlt
      have hclen : p.1.length = (p.2.getD (assign p.2 p.1) []).length :=
        (hlen p hp _ hmemc).symm
      have hpe := (distance_eq_zero_iff hclen).1 hzp
      rw [hpe]
      exact hmemc
    · intro hmem x hx
      rcases List.mem_map.1 hx with ⟨p, hp, rfl⟩
      rcases List.mem_iff_getElem.1 (hmem p hp) with ⟨j1, hj1, hj1e⟩
      have hnem : p.2 ≠ [] := hne p.2 (List.of_mem_zip hp).2
      have hmin := assign_min p.2 p.1 hnem j1 hj1
      have hdj1 : distance p.1 (p.2.getD j1 []) = 0 := by
        rw [getD_eq_get hj1, hj1e, distance_self]
      rcases hmin with hlt2 | ⟨heq2, _⟩
      · rw [hdj1] at hlt2
        exact absurd hlt2 (not_lt.2 (distance_nonneg _ _))
      · rw [hdj1] at heq2
        exact heq2
  refine ⟨hnn, hiff, ?_, by decide, by decide⟩
  intro hnot
  refine lt_of_le_of_ne hnn ?_
  intro h0
  exact hnot (hiff.1 h0.symm)

/-- Witness for C5 at the concretely trained codebook. -/
theorem pq_self_distance_witness :
    (∀ cb ∈ ([[[0], [3]]] : List (List Vec)), cb ≠ []) ∧
      (∀ p ∈ List.zip (segments ([[[0], [3]]] : List (List Vec)).length [2]) [[[0], [3]]],
        ∀ c ∈ p.2, c.length = p.1.length) ∧
      0 ≤ approximateDistance [[[0], [3]]] [2] (pqEncode [[[0], [3]]] [2]) :=
  ⟨by decide, by decide,
    (pq_self_distance [[[0], [3]]] [2] (by decide) (by decide)).1⟩

/-- Modelled from the spec: the residual of a vector — the vector minus its
assigned coarse centroid (residual encoding, the spec's documented design
choice for IVFPQ). -/
def residualOf (cents : List Vec) (v : Vec) : Vec :=
  List.zipWith (· - ·) v (cents.getD (assign cents v) [])

/-- Modelled from the spec: `IVFPQIndex.train` — train the coarse quantizer on
the full vectors, then train the product quantizer on the residuals; either
stage's failure aborts the whole training. -/
def ivfpqTrain (vs : List Vec) (d n m nbits : ℕ) :
    Except TrainError (List Vec × List (List Vec)) :=
  match kmeansTrain vs d n with
  | .error e => .error e
  | .ok cc =>
    match pqTrain (vs.map (residualOf cc)) d m nbits with
    | .error e => .error e
    | .ok cbs => .ok (cc, cbs)

/-- Modelled from the spec: the scored IVFPQ candidates — for each probed
cell, the approximate distance between the query's per-cell residual and each
stored code (the raw vectors are not retained; each stored vector is
represented only by the code of its residual). -/
def ivfpqScored (db cc : List Vec) (cbs : List (List Vec)) (q : Vec)
    (nprobe : ℕ) : List (ℕ × ℚ) :=
  (selectCells cc q nprobe).flatMap fun j =>
    (cellMembers db cc j).map fun i =>
      (i, approximateDistance cbs (List.zipWith (· - ·) q (cc.getD j []))
        (pqEncode cbs (residualOf cc (db.getD i []))))

/-- Modelled from the spec: `IVFPQIndex.search` — select the nprobe nearest
cells, score their members by approximate distance, and return the global top
k ascending (ties by lowest id). -/
def ivfpqSearch (db cc : List Vec) (cbs : List (List Vec)) (q : Vec)
    (k nprobe : ℕ) : List (ℕ × ℚ) :=
  (List.insertionSort resLE (ivfpqScored db cc cbs q nprobe)).take k

/-- C4 counterexample: a trained IVFPQ index whose full-probe search output
coincides exactly with the flat index output.  On the dataset {0, 2} with one
coarse cell and a one-segment one-bit product quantizer, training fits the
residuals {-1, 1} exactly, so the compression is lossless and the approximate
distances equal the true distances. -/
theorem ivfpq_full_probe_counterexample :
    ivfpqTrain [[0], [2]] 1 1 1 1 = .ok ([[1]], [[[-1], [1]]]) ∧
      ivfpqSearch [[0], [2]] [[1]] [[[-1], [1]]] [0] 2 1 =
        flatSearch [[0], [2]] [0] 2 := by
  refine ⟨by decide, by decide⟩

/-- C4 amended: IVFPQ search output can coincide with the flat output only
when every returned entry's approximate distance equals the true distance to
the stored vector it names — compression loss on any returned entry forces
the outputs apart; the loss is not irreducible, since exactly representable
datasets (the counterexample) reach equality. -/
theorem ivfpq_eq_flat_forces_no_loss (db cc : List Vec) (cbs : List (List Vec))
    (q : Vec) (k nprobe : ℕ)
    (heq : ivfpqSearch db cc cbs q k nprobe = flatSearch db q k) :
    ∀ x ∈ ivfpqSearch db cc cbs q k nprobe, x.2 = distance q (db.getD x.1 []) := by
  intro x hx
  rw [heq] at hx
  exact ((flatSearch_props db q k).2.2.1 x hx).2

/-- Witness for the amended C4 at the lossless concrete instance. -/
theorem ivfpq_eq_flat_forces_no_loss_witness :
    (ivfpqSearch [[0], [2]] [[1]] [[[-1], [1]]] [0] 2 1 = flatSearch [[0], [2]] [0] 2) ∧
      ∀ x ∈ ivfpqSearch [[0], [2]] [[1]] [[[-1], [1]]] [0] 2 1,
        x.2 = distance [0] (([[0], [2]] : List Vec).getD x.1 []) :=
  ⟨by decide, ivfpq_eq_flat_forces_no_loss [[0], [2]] [[1]] [[[-1], [1]]] [0] 2 1 (by decide)⟩

/-- Modelled from the spec: the caller-observable trained state of a
quantizer after a train call — success atomically replaces the prior trained
state with the freshly computed centroids, failure leaves the prior state
untouched. -/
def applyTrain (prior : Option (List Vec)) (vs : List Vec) (d n : ℕ) :
    Option (List Vec) :=
  match kmeansTrain vs d n with
  | .ok c => some c
  | .error _ => prior

/-- Modelled from the spec: the caller-observable trained state of an IVFPQ
index (coarse centroids and codebooks) after a train call. -/
def applyTrainIVFPQ (prior : Option (List Vec × List (List Vec)))
    (vs : List Vec) (d n m nbits : ℕ) :
    Option (List Vec × List (List Vec)) :=
  match ivfpqTrain vs d n m nbits with
  | .ok s => some s
  | .error _ => prior

/-- C8: train is atomic.  With fewer vectors than the requested cluster count
it fails with InsufficientData and the prior trained state — whatever it was
— is left untouched; otherwise it succeeds and replaces the prior state with
freshly computed centroids that do not depend on the prior state.  For the
two-stage IVFPQ training, a product-quantizer-stage failure (training set
smaller than the codebook size) aborts the whole call: no partially trained
coarse centroids or codebooks are ever observable. -/
theorem train_atomic (prior prior2 : Option (List Vec))
    (priorPQ : Option (List Vec × List (List Vec)))
    (vs : List Vec) (d n m nbits : ℕ) :
    (vs.length < n →
      kmeansTrain vs d n = .error .insufficientData ∧
        applyTrain prior vs d n = prior) ∧
    (n ≤ vs.length →
      ∃ c, kmeansTrain vs d n = .ok c ∧
        applyTrain prior vs d n = some c ∧ applyTrain prior2 vs d n = some c) ∧
    (0 < m → vs.length < 2 ^ nbits →
      (∃ e, ivfpqTrain vs d n m nbits = .error e) ∧
        applyTrainIVFPQ priorPQ vs d n m nbits = priorPQ) := by
  refine ⟨?_, ?_, ?_⟩
  · intro hlt
    have he : kmeansTrain vs d n = .error .insufficientData := by
      unfold kmeansTrain
      rw [if_pos hlt]
    exact ⟨he, by unfold applyTrain; rw [he]⟩
  · intro hle
    have hok : kmeansTrain vs d n = .ok (kmeansLoop vs d kmeansMaxIter (vs.take n)) := by
      unfold kmeansTrain
      rw [if_neg (by omega)]
    exact ⟨_, hok, by unfold applyTrain; rw [hok], by unfold applyTrain; rw [hok]⟩
  · intro hm hsmall
    have hpq : ∀ ws : List Vec, ws.length = vs.length →
        pqTrain ws d m nbits = .error .insufficientData := by
      intro ws hws
      unfold pqTrain
      cases m with
      | zero => exact absurd hm (by omega)
      | succ mm =>
        rw [List.range_succ_eq_map, List.map_cons]
        have hseg : kmeansTrain (ws.map fun v =>
            (v.drop (0 * (d / (mm + 1)))).take (d / (mm + 1))) (d / (mm + 1))
              (2 ^ nbits) = .error .insufficientData := by
          unfold kmeansTrain
          rw [if_pos (by simpa [hws] using hsmall)]
        rw [hseg]
        rfl
    have herr : ∃ e, ivfpqTrain vs d n m nbits = .error e := by
      cases hk : kmeansTrain vs d n with
      | error e =>
        refine ⟨e, ?_⟩
        unfold ivfpqTrain
        rw [hk]
      | ok cc =>
        refine ⟨.insufficientData, ?_⟩
        unfold ivfpqTrain
        simp only [hk, hpq (vs.map (residualOf cc)) (by simp)]
    rcases herr with ⟨e, he⟩
    exact ⟨⟨e, he⟩, by unfold applyTrainIVFPQ; rw [he]⟩

/-- Witness for C8: an insufficient training set leaves the prior state, and
an IVFPQ training whose PQ stage lacks data aborts atomically. -/
theorem train_atomic_witness :
    (kmeansTrain [[0], [2]] 1 3 = .error .insufficientData ∧
      applyTrain (some [[5]]) [[0], [2]] 1 3 = some [[5]]) ∧
    ((∃ e, ivfpqTrain [[0], [2]] 1 1 1 2 = .error e) ∧
      applyTrainIVFPQ (some ([[7]], [[[8]]])) [[0], [2]] 1 1 1 2 =
        some ([[7]], [[[8]]])) :=
  ⟨(train_atomic (some [[5]]) none (some ([[7]], [[[8]]])) [[0], [2]] 1 3 1 2).1
      (by decide),
    (train_atomic (some [[5]]) none (some ([[7]], [[[8]]])) [[0], [2]] 1 1 1 2).2.2
      (by decide) (by decide)⟩

/-- Modelled from the spec: the bounded best-first layer search of the graph
index — pop the nearest unexpanded candidate; stop when the result pool is
full and the candidate cannot improve it; otherwise score the candidate's
unvisited neighbors, add them to the candidate and result pools, and keep the
ef best results.  The fuel bounds the loop (every node is scored at most
once, so db.length + 2 steps always suffice). -/
def searchLoop (db : List Vec) (adj : List (List ℕ)) (q : Vec) (ef : ℕ) :
    ℕ → List (ℕ × ℚ) → List (ℕ × ℚ) → List ℕ → List (ℕ × ℚ)
  | 0, _, best, _ => best
  | fuel + 1, cand, best, visited =>
    match cand with
    | [] => best
    | c :: cs =>
      if ef ≤ best.length ∧ resLT (best.getLastD (0, 0)) c then best
      else
        let nbrs := (adj.getD c.1 []).filter fun i => decide (i ∉ visited)
        let scored := nbrs.map fun i => (i, distance q (db.getD i []))
        searchLoop db adj q ef fuel
          (List.insertionSort resLE (cs ++ scored))
          ((List.insertionSort resLE (best ++ scored)).take ef)
          (visited ++ nbrs)

/-- Modelled from the spec: `GraphIndex.search` — start at the entry node
(node 0) and run the bounded best-first search with pool size k, returning
the k best visited nodes ascending. -/
def graphSearch (db : List Vec) (adj : List (List ℕ)) (q : Vec) (k : ℕ) :
    List (ℕ × ℚ) :=
  if adj.isEmpty then []
  else
    searchLoop db adj q k (db.length + 2)
      [(0, distance q (db.getD 0 []))]
      ([(0, distance q (db.getD 0 []))].take k)
      [0]

/-- Modelled from the spec: degree-bound enforcement — keep only the edges to
the M nearest neighbors of the node (ties by lowest id), dropping the longest
edges. -/
def pruneEdges (db : List Vec) (M j : ℕ) (l : List ℕ) : List ℕ :=
  ((List.insertionSort resLE
    (l.map fun i => (i, distance (db.getD j []) (db.getD i [])))).map Prod.fst).take M

/-- Modelled from the spec: `GraphIndex.add` — greedily find the M nearest
already-inserted nodes reachable by graph search from the entry point,
connect the new node to them, add the reverse edges, and prune any node that
would exceed M connections. -/
def insertNode (db : List Vec) (M : ℕ) (adj : List (List ℕ)) (i : ℕ) :
    List (List ℕ) :=
  if adj.isEmpty then adj ++ [[]]
  else
    let nbrs := (resultIds (graphSearch db adj (db.getD i []) M)).take M
    ((List.range adj.length).map fun j =>
      if j ∈ nbrs then pruneEdges db M j (adj.getD j [] ++ [i]) else adj.getD j [])
      ++ [nbrs]

/-- Modelled from the spec: building the graph index by inserting every
stored vector in insertion order. -/
def buildGraph (db : List Vec) (M : ℕ) : List (List ℕ) :=
  (List.range db.length).foldl (insertNode db M) []

example : buildGraph [[0], [1], [2]] 1 = [[1], [0], [1]] := by decide

example : graphSearch [[0], [1], [2]] (buildGraph [[0], [1], [2]] 1) [2] 1 = [(1, 1)] := by decide

/-- Recall count of a graph-index search against the flat-index ground truth
on the same dataset (recall is this count divided by the ground-truth size). -/
def graphRecallCount (db : List Vec) (M : ℕ) (q : Vec) (k : ℕ) : ℕ :=
  ((resultIds (graphSearch db (buildGraph db M) q k)).filter fun i =>
    decide (i ∈ resultIds (flatSearch db q k))).length

/-- C7 counterexample: recall is not monotone in the max-connections
parameter M.  On the dataset {0, 6, 4, 5, 3} with query 2 and k = 1, the
graph built with M = 1 returns the true nearest neighbor (recall 1) while the
graph built with M = 2 misses it (recall 0): increasing M from 1 to 2
strictly decreases recall. -/
theorem graph_recall_not_mono_counterexample :
    (1 : ℕ) ≤ 2 ∧
      graphRecallCount [[0], [6], [4], [5], [3]] 2 [2] 1 <
        graphRecallCount [[0], [6], [4], [5], [3]] 1 [2] 1 := by
  refine ⟨by decide, by decide⟩

/-- C7 amended: degree reduction can strictly degrade quality — on the same
dataset, top-1 recall with connections 2 lies strictly below recall with
connections 3, and the better-connected graph returns the exact flat-index
top-1 — but the improvement is not monotone for every pair of M values. -/
theorem graph_recall_small_M_below_larger :
    graphRecallCount [[0], [6], [4], [5], [3]] 2 [2] 1 <
      graphRecallCount [[0], [6], [4], [5], [3]] 3 [2] 1 ∧
    graphSearch [[0], [6], [4], [5], [3]]
        (buildGraph [[0], [6], [4], [5], [3]] 3) [2] 1 =
      flatSearch [[0], [6], [4], [5], [3]] [2] 1 := by
  refine ⟨by decide, by decide⟩

/-- C10: a graph index with the small max-connections parameter 2 can miss an
exact match entirely.  On the dataset {0, 1, 2, 4} the degree-bound pruning
leaves node 3 with no incoming edges, so searching for the stored vector 4
itself returns only node 2 at strictly positive distance — the query's own id
is not returned at all. -/
theorem graph_small_M_misses_exact_match :
    ([[0], [1], [2], [4]] : List Vec).getD 3 [] = [4] ∧
      3 ∉ resultIds (graphSearch [[0], [1], [2], [4]]
        (buildGraph [[0], [1], [2], [4]] 2) [4] 1) ∧
      graphSearch [[0], [1], [2], [4]]
          (buildGraph [[0], [1], [2], [4]] 2) [4] 1 = [(2, 4)] := by
  refine ⟨by decide, by decide, by decide⟩

/-- The mutable state of an IVF index: trained centroids, per-cell id lists
(one cell per centroid), and the append-only vector store. -/
structure IVFState where
  cents : List Vec
  cells : List (List ℕ)
  store : List Vec

/-- Modelled from the spec: the operations of the external train/add/search
interface of an IVF index. -/
inductive IVFOp where
  | train : List Vec → ℕ → ℕ → IVFOp
  | add : Vec → IVFOp
  | search : Vec → ℕ → ℕ → IVFOp

/-- Modelled from the spec: the per-operation state transition — train
atomically replaces the trained state (starting a fresh clustering with an
empty store), add assigns the vector's nearest cell and appends the new id
there (rejected while untrained), search is read-only. -/
def ivfStep (st : IVFState) (op : IVFOp) : IVFState :=
  match op with
  | .train vs d n =>
    match kmeansTrain vs d n with
    | .ok c => ⟨c, List.replicate c.length [], []⟩
    | .error _ => st
  | .add v =>
    if st.cents.isEmpty then st
    else
      ⟨st.cents,
        st.cells.set (assign st.cents v)
          (st.cells.getD (assign st.cents v) [] ++ [st.store.length]),
        st.store ++ [v]⟩
  | .search _ _ _ => st

/-- The empty, untrained initial index state. -/
def initIVFState : IVFState := ⟨[], [], []⟩

/-- The IVF data-model invariant: one cell per centroid, and every stored id
lies in exactly one cell (the flattened cell lists are a permutation of the
stored ids). -/
def IVFInv (st : IVFState) : Prop :=
  st.cells.length = st.cents.length ∧
    st.cells.flatten.Perm (List.range st.store.length)

/-- Modelled from the spec: PQ configuration — a product quantizer may only
be configured when the segment count m divides the dimension d, otherwise
construction fails. -/
def newPQConfig (d m : ℕ) : Except TrainError (ℕ × ℕ) :=
  if d % m = 0 then .ok (d, m) else .error .dimensionMismatch

theorem segments_length (m : ℕ) (v : Vec) : (segments m v).length = m := by
  simp [segments]

theorem pqEncode_length (cbs : List (List Vec)) (v : Vec) :
    (pqEncode cbs v).length = cbs.length := by
  simp [pqEncode, List.length_zip, segments_length]

theorem flatten_replicate_nil (n : ℕ) :
    (List.replicate n ([] : List ℕ)).flatten = [] := by
  induction n with
  | zero => rfl
  | succ m ih => simp [List.replicate_succ, ih]

theorem flatten_set_append {cells : List (List ℕ)} {j : ℕ}
    (hj : j < cells.length) (x : ℕ) :
    (cells.set j (cells.getD j [] ++ [x])).flatten.Perm (cells.flatten ++ [x]) := by
  rw [List.perm_iff_count]
  intro a
  rw [List.set_eq_take_cons_drop _ hj, getD_eq_get hj]
  conv_rhs => rw [← List.take_append_drop j cells, List.drop_eq_getElem_cons hj]
  simp only [List.flatten_append, List.flatten_cons, List.count_append, List.count_cons]
  omega

theorem ivfStep_inv {st : IVFState} (h : IVFInv st) (op : IVFOp) :
    IVFInv (ivfStep st op) := by
  cases op with
  | train vs d n =>
    cases hk : kmeansTrain vs d n with
    | ok c =>
      have hstep : ivfStep st (.train vs d n) =
          ⟨c, List.replicate c.length [], []⟩ := by
        simp only [ivfStep, hk]
      rw [hstep]
      exact ⟨by simp, by simp [IVFInv, flatten_replicate_nil]⟩
    | error e =>
      have hstep : ivfStep st (.train vs d n) = st := by
        simp only [ivfStep, hk]
      rw [hstep]
      exact h
  | add v =>
    simp only [ivfStep]
    by_cases hc : st.cents.isEmpty
    · rw [if_pos hc]
      exact h
    · rw [if_neg hc]
      have hlt : assign st.cents v < st.cents.length :=
        assign_lt st.cents v (by simpa [List.isEmpty_iff] using hc)
      have hjlt : assign st.cents v < st.cells.length := by
        rw [h.1]
        exact hlt
      refine ⟨by simpa using h.1, ?_⟩
      refine (flatten_set_append hjlt st.store.length).trans ?_
      have hlen : (st.store ++ [v]).length = st.store.length + 1 := by simp
      rw [hlen, List.range_succ]
      exact h.2.append (List.Perm.refl _)
  | search q k p => exact h

theorem insertNode_degree (db : List Vec) (M : ℕ) {adj : List (List ℕ)}
    (h : ∀ l ∈ adj, l.length ≤ M) (i : ℕ) :
    ∀ l ∈ insertNode db M adj i, l.length ≤ M := by
  intro l hl
  simp only [insertNode] at hl
  by_cases ha : adj.isEmpty
  · rw [if_pos ha] at hl
    rcases List.mem_append.1 hl with h1 | h1
    · exact h l h1
    · simp only [List.mem_singleton] at h1
      subst h1
      simp
  · rw [if_neg ha] at hl
    rcases List.mem_append.1 hl with h1 | h1
    · rcases List.mem_map.1 h1 with ⟨j, hj, rfl⟩
      by_cases hjm : j ∈ (resultIds (graphSearch db adj (db.getD i []) M)).take M
      · rw [if_pos hjm]
        exact (List.length_take_le M _).trans (Nat.le_refl M) |>.trans_eq rfl
      · rw [if_neg hjm]
        have hjl : j < adj.length := List.mem_range.1 hj
        rw [getD_eq_get hjl]
        exact h _ (List.getElem_mem hjl)
    · simp only [List.mem_singleton] at h1
      subst h1
      exact List.length_take_le M _

theorem buildGraph_degree (db : List Vec) (M : ℕ) :
    ∀ l ∈ buildGraph db M, l.length ≤ M := by
  have haux : ∀ (is : List ℕ) (adj : List (List ℕ)),
      (∀ l ∈ adj, l.length ≤ M) →
      ∀ l ∈ is.foldl (insertNode db M) adj, l.length ≤ M := by
    intro is
    induction is with
    | nil => exact fun adj h => h
    | cons a t ih =>
      intro adj hadj
      exact ih _ (insertNode_degree db M hadj a)
  exact haux (List.range db.length) [] (by simp)

/-- C9: the data-model invariants hold after every sequence of operations.
Every stored id lies in exactly one IVF cell (and there is one cell per
centroid) after any train/add/search sequence from the empty index; every
vector encoded by a product quantizer has exactly one code, of length m (one
sub-code per codebook); every node of a built graph index keeps at most M
neighbors; and a product quantizer is only configured when the segment count
divides the dimension. -/
theorem data_model_invariants :
    (∀ ops : List IVFOp, IVFInv (ops.foldl ivfStep initIVFState)) ∧
    (∀ (cbs : List (List Vec)) (vs : List Vec),
      ∀ code ∈ vs.map (pqEncode cbs), code.length = cbs.length) ∧
    (∀ (db : List Vec) (M : ℕ), ∀ nbrs ∈ buildGraph db M, nbrs.length ≤ M) ∧
    (∀ d m du mu : ℕ, newPQConfig d m = .ok (du, mu) → m ∣ d) := by
  refine ⟨?_, ?_, buildGraph_degree, ?_⟩
  · have haux : ∀ (ops : List IVFOp) (st : IVFState), IVFInv st →
        IVFInv (ops.foldl ivfStep st) := by
      intro ops
      induction ops with
      | nil => exact fun st h => h
      | cons a t ih =>
        intro st hst
        exact ih _ (ivfStep_inv hst a)
    intro ops
    exact haux ops initIVFState ⟨rfl, List.Perm.refl _⟩
  · intro cbs vs code hcode
    rcases List.mem_map.1 hcode with ⟨v, _, rfl⟩
    exact pqEncode_length cbs v
  · intro d m du mu hok
    unfold newPQConfig at hok
    by_cases hmod : d % m = 0
    · exact Nat.dvd_of_mod_eq_zero hmod
    · rw [if_neg hmod] at hok
      cases hok

/-- C1: for every flat index holding n vectors, every query q and every k,
`flatSearch db q k` returns min(k, n) (id, distance) pairs, sorted strictly by
the result order (ascending distance, equal distances in increasing id order,
which is the stable insertion-order tie-break), each carrying the true
distance from the query to the stored vector with that id, with pairwise
distinct ids, and its id set is exactly the true k nearest stored vectors
under the metric: every stored vector that is not returned is at least as far
(with the stable tie-break deciding equal distances) as every returned one. -/
theorem flatSearch_correct (db : List Vec) (q : Vec) (k : ℕ) :
    (flatSearch db q k).length = min k db.length ∧
    List.Pairwise resLT (flatSearch db q k) ∧
    (∀ x ∈ flatSearch db q k, x.1 < db.length ∧ x.2 = distance q (db.getD x.1 [])) ∧
    ((flatSearch db q k).map Prod.fst).Nodup ∧
    (∀ i, i < db.length → i ∉ (flatSearch db q k).map Prod.fst →
      ∀ x ∈ flatSearch db q k, resLE x (i, distance q (db.getD i []))) :=
  flatSearch_props db q k
